import Mathlib

set_option maxRecDepth 1000000

/-!
Verification of the `ce` (carter-emu) virtual machine against its
natural-language specification.

The machine stores program and data in one shared 256-byte memory.  Four
symbolic instructions are packed four-to-a-byte (2 bits each, MSB-first).
The execution engine (`execute` in `src/main.rs`) runs a fetch-decode-execute
loop with registers `dp`, `ipl`, `iph`, `rpl`, `rph`.

Embedding notes:
* `u8` cells are modelled as `Nat` with explicit `% 256` where the code wraps;
  `usize` registers are modelled as `Nat` (they only ever increase by 1).
* Rust's fallible operations (`mem[i]` indexing, the `panic!` arm of
  `from_byte`) are modelled with `Option` / an explicit `panicked` outcome.
* The Rust `execute` is a nested loop: the outer loop performs the halt check
  and decodes `mem[ipl]` into a group `ins` of 4 instructions; the inner loop
  executes `ins[iph]`, leaving the inner loop (and hence re-fetching) only on
  a taken `LoopClose` jump or when `iph` wraps past 3.  We model one inner
  iteration as one `step`; the `group` field of `State` is `some ins` while
  control is inside the inner loop with cached group `ins`, and `none` at the
  top of the outer loop (fetch pending).
-/

/-- The four symbolic instructions of the language (enum `Instruction` in
`src/main.rs`). -/
inductive Instruction : Type where
  | LoopOpen
  | LoopClose
  | Increment
  | ShiftRight
deriving DecidableEq

/-- One 2-bit code mapped to an instruction; the wildcard arm of the Rust
`match` is a `panic!`, modelled as `none`. -/
def decodePair (b : Nat) : Option Instruction :=
  match b with
  | 0b00 => some Instruction.LoopOpen
  | 0b01 => some Instruction.LoopClose
  | 0b10 => some Instruction.Increment
  | 0b11 => some Instruction.ShiftRight
  | _ => none

/-- `Instruction::from_byte`: split a byte into its four 2-bit pairs
(MSB-first) and map each through `decodePair`. -/
def Instruction.from_byte (byte : Nat) : Option (List Instruction) := do
  let i0 ← decodePair ((byte &&& 0b11000000) >>> 6)
  let i1 ← decodePair ((byte &&& 0b00110000) >>> 4)
  let i2 ← decodePair ((byte &&& 0b00001100) >>> 2)
  let i3 ← decodePair (byte &&& 0b00000011)
  some [i0, i1, i2, i3]

/-- `Instruction::to_pair`: the 2-bit code of an optional instruction; an
absent instruction encodes as `0b00`. -/
def Instruction.to_pair (i : Option Instruction) : Nat :=
  match i with
  | some Instruction.LoopOpen => 0b00
  | some Instruction.LoopClose => 0b01
  | some Instruction.Increment => 0b10
  | some Instruction.ShiftRight => 0b11
  | none => 0b00

/-- `Instruction::to_byte`: pack up to four instructions into one byte,
instruction 0 in bits 7-6 down to instruction 3 in bits 1-0. -/
def Instruction.to_byte (is : List Instruction) : Nat :=
  Instruction.to_pair (is.get? 0) <<< 6 |||
    Instruction.to_pair (is.get? 1) <<< 4 |||
    Instruction.to_pair (is.get? 2) <<< 2 |||
    Instruction.to_pair (is.get? 3)

/-- The loader's chunking (`instructions.chunks(4)` in `main`): consecutive
chunks of at most 4 instructions. -/
def chunks4 : List Instruction → List (List Instruction)
  | [] => []
  | [a] => [[a]]
  | [a, b] => [[a, b]]
  | [a, b, c] => [[a, b, c]]
  | a :: b :: c :: d :: rest => [a, b, c, d] :: chunks4 rest

/-- The loader (`main` in `src/main.rs`): pack the instruction sequence into
bytes; reject images over 256 bytes (the `panic!("Error: program length
exceeds 256 bytes")`, modelled as `none`); otherwise zero-pad to 256 bytes
(`mem.resize(256, 0)`). -/
def load (prog : List Instruction) : Option (List Nat) :=
  if ((chunks4 prog).map Instruction.to_byte).length > 256 then none
  else
    some ((chunks4 prog).map Instruction.to_byte ++
      List.replicate (256 - ((chunks4 prog).map Instruction.to_byte).length) 0)

/-- The register file plus memory of `execute`, with `group` recording the
control position: `none` at the top of the outer loop (halt check and fetch
pending), `some ins` inside the inner loop with cached decoded group `ins`. -/
structure State : Type where
  mem : List Nat
  dp : Nat
  ipl : Nat
  iph : Nat
  rpl : Nat
  rph : Nat
  group : Option (List Instruction)
deriving DecidableEq

/-- Outcome of one step: normal return from `execute` (carrying the final
state), a Rust panic, or continuation. -/
inductive StepResult : Type where
  | halted (s : State)
  | panicked
  | next (s : State)
deriving DecidableEq

/-- The pointer-advance epilogue of the inner loop body:
`iph += 1; if iph > 3 { iph = 0; ipl += 1; break; }` — the `break` leaves the
inner loop, so the cached group is dropped. -/
def advance (s : State) : StepResult :=
  if s.iph + 1 > 3 then
    StepResult.next { s with iph := 0, ipl := s.ipl + 1, group := none }
  else
    StepResult.next { s with iph := s.iph + 1 }

/-- One iteration of the inner loop body of `execute`, executing instruction
`g.get? s.iph` of the cached group `g` (`let inst = ins[iph]` followed by the
`match inst`). -/
def execGroup (s : State) (g : List Instruction) : StepResult :=
  match g.get? s.iph with
  | none => StepResult.panicked
  | some inst =>
    match inst with
    | Instruction.LoopOpen =>
      if s.iph + 1 > 3 then
        advance { s with rpl := s.ipl + 1, rph := 0, group := some g }
      else
        advance { s with rpl := s.ipl, rph := s.iph + 1, group := some g }
    | Instruction.LoopClose =>
      match s.mem.get? s.dp with
      | none => StepResult.panicked
      | some v =>
        if v ≠ 0 then
          StepResult.next { s with ipl := s.rpl, iph := s.rph, group := none }
        else
          advance { s with group := some g }
    | Instruction.Increment =>
      match s.mem.get? s.dp with
      | none => StepResult.panicked
      | some v =>
        advance { s with mem := s.mem.set s.dp ((v + 1) % 256), group := some g }
    | Instruction.ShiftRight =>
      advance { s with dp := s.dp + 1, group := some g }

/-- One symbolic-instruction step of `execute`.  At the top of the outer loop
(`group = none`) this performs the halt check `if ipl == 256 {return}` and the
fetch `Instruction::from_byte(mem[ipl])`, then executes the first instruction
of the fetched group; mid-group it executes the next cached instruction. -/
def step (s : State) : StepResult :=
  match s.group with
  | some g => execGroup s g
  | none =>
    if s.ipl = 256 then StepResult.halted s
    else
      match s.mem.get? s.ipl with
      | none => StepResult.panicked
      | some b =>
        match Instruction.from_byte b with
        | none => StepResult.panicked
        | some g => execGroup s g

/-- Run at most `n` steps; `next s` means still running in state `s` after `n`
steps. -/
def run (n : Nat) (s : State) : StepResult :=
  match n with
  | 0 => StepResult.next s
  | n + 1 =>
    match step s with
    | StepResult.next s' => run n s'
    | r => r

/-- The initial state of `execute` on a given memory image
(`dp = ipl = iph = rpl = rph = 0`, control at the top of the outer loop). -/
def mkInit (mem : List Nat) : State :=
  ⟨mem, 0, 0, 0, 0, 0, none⟩

/-- The group the next executed instruction will be taken from: the cached
group mid-group, otherwise the decode of `mem[ipl]` (when not halting). -/
def currentGroup (s : State) : Option (List Instruction) :=
  match s.group with
  | some g => some g
  | none =>
    if s.ipl = 256 then none
    else
      match s.mem.get? s.ipl with
      | none => none
      | some b => Instruction.from_byte b

/-- The instruction the next `step` will execute, when one exists. -/
def currentInstruction (s : State) : Option Instruction :=
  (currentGroup s).bind (fun g => g.get? s.iph)

/-- When the next instruction comes from group `g`, `step` runs the inner
loop body on `g`. -/
lemma step_of_currentGroup (s : State) (g : List Instruction)
    (h : currentGroup s = some g) : step s = execGroup s g := by
  unfold currentGroup at h
  unfold step
  cases hg : s.group with
  | some g' =>
    simp only [hg, Option.some.injEq] at h
    simp only [hg, h]
  | none =>
    simp only [hg] at h ⊢
    by_cases hip : s.ipl = 256
    · simp only [if_pos hip] at h
      exact Option.noConfusion h
    · simp only [if_neg hip] at h ⊢
      cases hm : s.mem.get? s.ipl with
      | none =>
        simp only [hm] at h
        exact Option.noConfusion h
      | some b =>
        simp only [hm] at h ⊢
        simp only [h]

/-- Unfold `currentInstruction` into its group and slot. -/
lemma currentInstruction_split (s : State) (i : Instruction)
    (h : currentInstruction s = some i) :
    ∃ g, currentGroup s = some g ∧ g.get? s.iph = some i := by
  unfold currentInstruction at h
  cases hcg : currentGroup s with
  | none => rw [hcg] at h; cases h
  | some g => rw [hcg] at h; exact ⟨g, rfl, h⟩

/-- `chunks4` produces `⌈n/4⌉` chunks. -/
lemma chunks4_length : ∀ l : List Instruction,
    (chunks4 l).length = (l.length + 3) / 4
  | [] => by simp [chunks4]
  | [_] => by simp [chunks4]
  | [_, _] => by simp [chunks4]
  | [_, _, _] => by simp [chunks4]
  | _ :: _ :: _ :: _ :: rest => by
    have ih := chunks4_length rest
    simp only [chunks4, List.length_cons, ih]
    omega

/-- Claim C7: for every byte value 0..255, `Instruction::from_byte` returns
exactly 4 instructions and never fails (its panic branch is unreachable). -/
theorem c7_from_byte_total (b : Nat) (hb : b < 256) :
    (Instruction.from_byte b).map List.length = some 4 := by
  have h : ∀ x : Fin 256, (Instruction.from_byte x.val).map List.length = some 4 := by
    decide
  exact h ⟨b, hb⟩

theorem c7_witness :
    (129 : Nat) < 256 ∧ (Instruction.from_byte 129).map List.length = some 4 :=
  ⟨by decide, c7_from_byte_total 129 (by decide)⟩

/-- Claim C4: for every sequence of 1 to 4 symbolic instructions, decoding the
byte produced by encoding it reproduces the sequence followed by `LoopOpen` in
each unused slot. -/
theorem c4_roundtrip (seq : List Instruction) (h1 : 1 ≤ seq.length)
    (h4 : seq.length ≤ 4) :
    Instruction.from_byte (Instruction.to_byte seq) =
      some (seq ++ List.replicate (4 - seq.length) Instruction.LoopOpen) := by
  match seq with
  | [] => simp at h1
  | [a] => cases a <;> decide
  | [a, b] => cases a <;> cases b <;> decide
  | [a, b, c] => cases a <;> cases b <;> cases c <;> decide
  | [a, b, c, d] => cases a <;> cases b <;> cases c <;> cases d <;> decide
  | _ :: _ :: _ :: _ :: _ :: _ => simp at h4

theorem c4_witness :
    1 ≤ ([Instruction.Increment, Instruction.ShiftRight] : List Instruction).length ∧
    ([Instruction.Increment, Instruction.ShiftRight] : List Instruction).length ≤ 4 ∧
    Instruction.from_byte
        (Instruction.to_byte [Instruction.Increment, Instruction.ShiftRight]) =
      some [Instruction.Increment, Instruction.ShiftRight, Instruction.LoopOpen,
        Instruction.LoopOpen] :=
  ⟨by decide, by decide,
    c4_roundtrip [Instruction.Increment, Instruction.ShiftRight] (by decide) (by decide)⟩

/-- Claim C8: a source program of more than 1024 symbolic instructions fails to
load (`ProgramTooLarge`, the engine is never invoked); one of at most 1024
instructions loads into a full 256-byte image handed to the engine. -/
theorem c8_program_too_large :
    (∀ prog : List Instruction, (load prog).isSome ↔ prog.length ≤ 1024) ∧
    (∀ prog mem, load prog = some mem → mem.length = 256) := by
  constructor
  · intro prog
    unfold load
    simp only [List.length_map, chunks4_length]
    by_cases h : (prog.length + 3) / 4 > 256
    · simp only [if_pos h, Option.isSome_none, Bool.false_eq_true, false_iff]
      omega
    · simp only [if_neg h, Option.isSome_some, true_iff]
      omega
  · intro prog mem h
    unfold load at h
    split_ifs at h with hl
    obtain rfl := Option.some.inj h
    rw [List.length_append, List.length_replicate]
    omega

/-- Claim C5: every executed `LoopOpen` unconditionally overwrites the single
return-pointer slot with the position immediately after itself (`rpl = ipl`,
`rph = iph + 1`, carrying into `rpl` when `rph` would exceed 3); on the nested
input `[[+]]` the inner open's target replaces the outer's, so the first taken
`LoopClose` jumps to the position after the inner open (byte 0, slot 2). -/
theorem c5_loop_open_overwrites :
    (∀ s g, currentGroup s = some g →
      g.get? s.iph = some Instruction.LoopOpen →
      step s =
        if s.iph + 1 > 3 then
          StepResult.next
            { s with rpl := s.ipl + 1, rph := 0, iph := 0, ipl := s.ipl + 1, group := none }
        else
          StepResult.next
            { s with rpl := s.ipl, rph := s.iph + 1, iph := s.iph + 1, group := some g }) ∧
    load [Instruction.LoopOpen, Instruction.LoopOpen, Instruction.Increment,
        Instruction.LoopClose] = some (9 :: List.replicate 255 0) ∧
    run 2 (mkInit (9 :: List.replicate 255 0)) =
      StepResult.next ⟨9 :: List.replicate 255 0, 0, 0, 2, 0, 2,
        some [Instruction.LoopOpen, Instruction.LoopOpen, Instruction.Increment,
          Instruction.LoopClose]⟩ ∧
    run 4 (mkInit (9 :: List.replicate 255 0)) =
      StepResult.next ⟨10 :: List.replicate 255 0, 0, 0, 2, 0, 2, none⟩ := by
  refine ⟨?_, by decide, by decide, by decide⟩
  intro s g hg hi
  rw [step_of_currentGroup s g hg]
  unfold execGroup
  simp only [hi]
  by_cases h : s.iph + 1 > 3 <;> simp [advance, h]

theorem c5_witness :
    currentGroup (mkInit [0]) = some [Instruction.LoopOpen, Instruction.LoopOpen,
      Instruction.LoopOpen, Instruction.LoopOpen] ∧
    step (mkInit [0]) =
      StepResult.next ⟨[0], 0, 0, 1, 0, 1,
        some [Instruction.LoopOpen, Instruction.LoopOpen, Instruction.LoopOpen,
          Instruction.LoopOpen]⟩ :=
  ⟨by decide,
    c5_loop_open_overwrites.1 (mkInit [0])
      [Instruction.LoopOpen, Instruction.LoopOpen, Instruction.LoopOpen,
        Instruction.LoopOpen] (by decide) (by decide)⟩

/-- Claim C6: a `LoopClose` seeing `memory[dp] ≠ 0` jumps (`ipl = rpl`,
`iph = rph`) and skips the normal advance for that cycle; a `LoopClose` seeing
`memory[dp] == 0` leaves the registers un-jumped and falls through to the
normal advance (`iph += 1` with carry into `ipl`). -/
theorem c6_loop_close (s : State) (g : List Instruction) (v : Nat)
    (hg : currentGroup s = some g)
    (hi : g.get? s.iph = some Instruction.LoopClose)
    (hv : s.mem.get? s.dp = some v) :
    (v ≠ 0 →
      step s = StepResult.next { s with ipl := s.rpl, iph := s.rph, group := none }) ∧
    (v = 0 →
      step s =
        if s.iph + 1 > 3 then
          StepResult.next { s with iph := 0, ipl := s.ipl + 1, group := none }
        else
          StepResult.next { s with iph := s.iph + 1, group := some g }) := by
  rw [step_of_currentGroup s g hg]
  unfold execGroup
  simp only [hi, hv]
  constructor
  · intro hvne
    simp [hvne]
  · intro hv0
    subst hv0
    by_cases h : s.iph + 1 > 3 <;> simp [advance, h]

theorem c6_witness :
    (1 : Nat) ≠ 0 ∧
    step ⟨[65, 1], 1, 0, 0, 7, 2, none⟩ =
      StepResult.next ⟨[65, 1], 1, 7, 2, 7, 2, none⟩ :=
  ⟨by decide,
    (c6_loop_close ⟨[65, 1], 1, 0, 0, 7, 2, none⟩
      [Instruction.LoopClose, Instruction.LoopOpen, Instruction.LoopOpen,
        Instruction.LoopClose] 1 (by decide) (by decide) (by decide)).1
      (by decide)⟩

/-- Claim C3: executing `Increment` on a state with `memory[dp] == 255` yields
`memory[dp] == 0` by silent 8-bit wraparound; the engine neither faults nor
halts on cell overflow. -/
theorem c3_increment_wraparound (s : State)
    (h : currentInstruction s = some Instruction.Increment)
    (hv : s.mem.get? s.dp = some 255) :
    ∃ s', step s = StepResult.next s' ∧ s'.mem = s.mem.set s.dp 0 ∧
      s'.dp = s.dp ∧ s'.mem.get? s'.dp = some 0 := by
  obtain ⟨g, hg, hi⟩ := currentInstruction_split s _ h
  have hlt : s.dp < s.mem.length := by
    by_contra hc
    rw [List.get?_eq_none.mpr (Nat.le_of_not_lt hc)] at hv
    exact Option.noConfusion hv
  rw [step_of_currentGroup s g hg]
  unfold execGroup
  simp only [hi, hv]
  have h255 : (255 + 1) % 256 = 0 := by norm_num
  rw [h255]
  unfold advance
  by_cases hiph : s.iph + 1 > 3
  · rw [if_pos hiph]
    exact ⟨_, rfl, rfl, rfl, List.get?_set_eq_of_lt 0 hlt⟩
  · rw [if_neg hiph]
    exact ⟨_, rfl, rfl, rfl, List.get?_set_eq_of_lt 0 hlt⟩

theorem c3_witness :
    currentInstruction (State.mk [128, 255] 1 0 0 0 0 none) = some Instruction.Increment ∧
    (State.mk [128, 255] 1 0 0 0 0 none).mem.get?
      (State.mk [128, 255] 1 0 0 0 0 none).dp = some 255 ∧
    ∃ s', step (State.mk [128, 255] 1 0 0 0 0 none) = StepResult.next s' ∧
      s'.mem = (State.mk [128, 255] 1 0 0 0 0 none).mem.set
        (State.mk [128, 255] 1 0 0 0 0 none).dp 0 ∧
      s'.dp = (State.mk [128, 255] 1 0 0 0 0 none).dp ∧
      s'.mem.get? s'.dp = some 0 :=
  ⟨by decide, by decide,
    c3_increment_wraparound (State.mk [128, 255] 1 0 0 0 0 none) (by decide) (by decide)⟩

/-- The advance epilogue never changes `dp`. -/
lemma advance_dp (s s' : State) (h : advance s = StepResult.next s') :
    s'.dp = s.dp := by
  unfold advance at h
  split_ifs at h <;> cases h <;> rfl

/-- The inner loop body never decreases `dp`. -/
lemma execGroup_dp (s : State) (g : List Instruction) (s' : State)
    (h : execGroup s g = StepResult.next s') : s.dp ≤ s'.dp := by
  unfold execGroup at h
  cases hgi : g.get? s.iph with
  | none =>
    simp only [hgi] at h
    exact StepResult.noConfusion h
  | some inst =>
    simp only [hgi] at h
    cases inst with
    | LoopOpen =>
      split_ifs at h <;> exact Nat.le_of_eq (advance_dp _ _ h).symm
    | LoopClose =>
      cases hv : s.mem.get? s.dp with
      | none =>
        simp only [hv] at h
        exact StepResult.noConfusion h
      | some v =>
        simp only [hv] at h
        split_ifs at h
        · cases h; exact Nat.le.refl
        · exact Nat.le_of_eq (advance_dp _ _ h).symm
    | Increment =>
      cases hv : s.mem.get? s.dp with
      | none =>
        simp only [hv] at h
        exact StepResult.noConfusion h
      | some v => simp only [hv] at h; exact Nat.le_of_eq (advance_dp _ _ h).symm
    | ShiftRight =>
      rw [advance_dp _ _ h]
      exact Nat.le_succ _

/-- Claim C10: no operation ever decreases `dp`, and once `dp` is past the end
of memory, the next instruction that reads or writes `memory[dp]` (an
`Increment`, or a `LoopClose` evaluating its condition) faults with an
out-of-bounds index panic instead of wrapping to `dp mod 256`. -/
theorem c10_dp_out_of_range :
    (∀ s s', step s = StepResult.next s' → s.dp ≤ s'.dp) ∧
    (∀ s, s.mem.length ≤ s.dp →
      (currentInstruction s = some Instruction.Increment ∨
        currentInstruction s = some Instruction.LoopClose) →
      step s = StepResult.panicked) := by
  constructor
  · intro s s' h
    unfold step at h
    cases hg : s.group with
    | some g =>
      simp only [hg] at h
      exact execGroup_dp s g s' h
    | none =>
      simp only [hg] at h
      by_cases hip : s.ipl = 256
      · rw [if_pos hip] at h
        exact StepResult.noConfusion h
      · rw [if_neg hip] at h
        cases hm : s.mem.get? s.ipl with
        | none =>
          simp only [hm] at h
          exact StepResult.noConfusion h
        | some b =>
          simp only [hm] at h
          cases hfb : Instruction.from_byte b with
          | none =>
            simp only [hfb] at h
            exact StepResult.noConfusion h
          | some g =>
            simp only [hfb] at h
            exact execGroup_dp s g s' h
  · intro s hlen hinst
    have hnone : s.mem.get? s.dp = none := List.get?_eq_none.mpr hlen
    rcases hinst with hI | hI <;>
      (obtain ⟨g, hg, hi⟩ := currentInstruction_split s _ hI
       rw [step_of_currentGroup s g hg]
       unfold execGroup
       simp only [hi, hnone])

theorem c10_witness :
    step ⟨[192], 0, 0, 0, 0, 0, none⟩ = StepResult.next ⟨[192], 1, 0, 1, 0, 0,
      some [Instruction.ShiftRight, Instruction.LoopOpen, Instruction.LoopOpen,
        Instruction.LoopOpen]⟩ ∧
    (0 : Nat) ≤ 1 ∧
    ([192] : List Nat).length ≤ 1 ∧
    step ⟨[192], 1, 0, 1, 0, 0,
      some [Instruction.ShiftRight, Instruction.LoopOpen, Instruction.LoopOpen,
        Instruction.LoopOpen]⟩ ≠ StepResult.panicked ∧
    step ⟨[66, 0], 2, 0, 0, 0, 0, none⟩ = StepResult.panicked :=
  ⟨by decide,
    c10_dp_out_of_range.1 ⟨[192], 0, 0, 0, 0, 0, none⟩
      ⟨[192], 1, 0, 1, 0, 0,
        some [Instruction.ShiftRight, Instruction.LoopOpen, Instruction.LoopOpen,
          Instruction.LoopOpen]⟩ (by decide),
    by decide, by decide,
    c10_dp_out_of_range.2 ⟨[66, 0], 2, 0, 0, 0, 0, none⟩ (by decide)
      (Or.inr (by decide))⟩

theorem c8_witness :
    load [Instruction.Increment] = some (128 :: List.replicate 255 0) ∧
    (128 :: List.replicate 255 0 : List Nat).length = 256 :=
  ⟨by decide,
    c8_program_too_large.2 [Instruction.Increment] (128 :: List.replicate 255 0)
      (by decide)⟩

/-- Apply a memory transformation to the state inside a step outcome. -/
def mapMemResult (f : List Nat → List Nat) : StepResult → StepResult
  | StepResult.halted s => StepResult.halted { s with mem := f s.mem }
  | StepResult.panicked => StepResult.panicked
  | StepResult.next s => StepResult.next { s with mem := f s.mem }

/-- Claim C1 (amended): mid-group the engine never re-reads `memory[ipl]`: with
a cached group, a step depends on memory only through `memory[dp]`, so writing
any other cell — in particular the byte at `ipl` — commutes with the step.  (A
per-instruction refetching machine violates this when the write hits `ipl`.) -/
theorem c1_amended_group_cached (s : State) (g : List Instruction) (p v : Nat)
    (hg : s.group = some g) (hp : p ≠ s.dp) :
    step { s with mem := s.mem.set p v } =
      mapMemResult (fun m => m.set p v) (step s) := by
  obtain ⟨mem, dp, ipl, iph, rpl, rph, grp⟩ := s
  simp only [] at hg hp
  subst hg
  simp only [step]
  simp only [execGroup]
  cases hgi : g.get? iph with
  | none => simp only [hgi, mapMemResult]
  | some inst =>
    simp only [hgi]
    cases inst with
    | LoopOpen =>
      by_cases hc : iph + 1 > 3 <;> simp [advance, mapMemResult, hc]
    | LoopClose =>
      rw [List.get?_set_ne _ _ hp]
      cases hv : mem.get? dp with
      | none => simp only [hv, mapMemResult]
      | some v' =>
        simp only [hv]
        by_cases hvz : v' = 0
        · subst hvz
          by_cases hc : iph + 1 > 3 <;> simp [advance, mapMemResult, hc]
        · simp [hvz, mapMemResult]
    | Increment =>
      rw [List.get?_set_ne _ _ hp]
      cases hv : mem.get? dp with
      | none => simp only [hv, mapMemResult]
      | some v' =>
        simp only [hv]
        have hsc : (mem.set p v).set dp ((v' + 1) % 256) =
            (mem.set dp ((v' + 1) % 256)).set p v :=
          List.set_comm _ _ _ hp
        by_cases hc : iph + 1 > 3 <;> simp [advance, mapMemResult, hc, hsc]
    | ShiftRight =>
      by_cases hc : iph + 1 > 3 <;> simp [advance, mapMemResult, hc]

/-- A concrete mid-group state used to witness claim C1's amended theorem. -/
def c1s : State :=
  ⟨[7, 9], 0, 0, 1, 0, 0,
    some [Instruction.Increment, Instruction.Increment, Instruction.LoopOpen,
      Instruction.LoopOpen]⟩

theorem c1_witness :
    c1s.group = some [Instruction.Increment, Instruction.Increment,
      Instruction.LoopOpen, Instruction.LoopOpen] ∧
    (1 : Nat) ≠ c1s.dp ∧
    step { c1s with mem := c1s.mem.set 1 200 } =
      mapMemResult (fun m => m.set 1 200) (step c1s) :=
  ⟨by decide, by decide,
    c1_amended_group_cached c1s
      [Instruction.Increment, Instruction.Increment, Instruction.LoopOpen,
        Instruction.LoopOpen] 1 200 (by decide) (by decide)⟩

/-- Register file and memory of the specification's state machine, which has
no cached-group control position. -/
structure SpecState : Type where
  mem : List Nat
  dp : Nat
  ipl : Nat
  iph : Nat
  rpl : Nat
  rph : Nat
deriving DecidableEq

/-- Outcome of one step of the specification's state machine. -/
inductive SpecResult : Type where
  | halted (s : SpecState)
  | panicked
  | next (s : SpecState)
deriving DecidableEq

/-- Step 6 of the specification's state machine: `iph += 1`; on overflow past
3 reset `iph` and carry into `ipl`. -/
def specAdvance (s : SpecState) : SpecResult :=
  if s.iph + 1 > 3 then SpecResult.next { s with iph := 0, ipl := s.ipl + 1 }
  else SpecResult.next { s with iph := s.iph + 1 }

/-- The per-instruction refetching machine claim C1 compares the engine
against, built from the specification's words (§4.2, one iteration per
symbolic instruction): halt check, fetch group by decoding `memory[ipl]`,
select `group[iph]`, execute, advance unless a `LoopClose` jump occurred. -/
def specStep (s : SpecState) : SpecResult :=
  if s.ipl = 256 then SpecResult.halted s
  else
    match s.mem.get? s.ipl with
    | none => SpecResult.panicked
    | some b =>
      match Instruction.from_byte b with
      | none => SpecResult.panicked
      | some g =>
        match g.get? s.iph with
        | none => SpecResult.panicked
        | some inst =>
          match inst with
          | Instruction.LoopOpen =>
            if s.iph + 1 > 3 then specAdvance { s with rpl := s.ipl + 1, rph := 0 }
            else specAdvance { s with rpl := s.ipl, rph := s.iph + 1 }
          | Instruction.LoopClose =>
            match s.mem.get? s.dp with
            | none => SpecResult.panicked
            | some v =>
              if v ≠ 0 then SpecResult.next { s with ipl := s.rpl, iph := s.rph }
              else specAdvance s
          | Instruction.Increment =>
            match s.mem.get? s.dp with
            | none => SpecResult.panicked
            | some v => specAdvance { s with mem := s.mem.set s.dp ((v + 1) % 256) }
          | Instruction.ShiftRight => specAdvance { s with dp := s.dp + 1 }

/-- Run at most `n` steps of the specification's refetching machine. -/
def specRun (n : Nat) (s : SpecState) : SpecResult :=
  match n with
  | 0 => SpecResult.next s
  | n + 1 =>
    match specStep s with
    | SpecResult.next s' => specRun n s'
    | r => r

/-- Initial state of the refetching machine on a memory image. -/
def mkSpecInit (mem : List Nat) : SpecState := ⟨mem, 0, 0, 0, 0, 0⟩

/-- Claim C1 (counterexample): on the program byte `130` (`+[[+`), the engine
and the per-instruction refetching machine both halt but with different final
memories (132 vs 131 in cell 0): the Increment at slot 0 modifies the byte at
`ipl`, the engine keeps executing the stale cached group (slot 3 stays
`Increment`), while the refetching machine decodes the updated byte (slot 3
becomes `ShiftRight`). -/
theorem c1_counterexample :
    run 2000 (mkInit (130 :: List.replicate 255 0)) =
      StepResult.halted ⟨132 :: List.replicate 255 0, 0, 256, 0, 256, 0, none⟩ ∧
    specRun 2000 (mkSpecInit (130 :: List.replicate 255 0)) =
      SpecResult.halted ⟨131 :: List.replicate 255 0, 1, 256, 0, 256, 0⟩ ∧
    (132 :: List.replicate 255 0 : List Nat) ≠ 131 :: List.replicate 255 0 :=
  ⟨by decide, by decide, by decide⟩

/-- Claim C2 (counterexample): the `+` program's packed image holds `128` (the
encoding of `+` with `LoopOpen` padding) in byte 0, not 0, and the run leaves
`memory[0] = 129`, not `1`. -/
theorem c2_counterexample :
    load [Instruction.Increment] = some (128 :: List.replicate 255 0) ∧
    (128 :: List.replicate 255 0 : List Nat).get? 0 ≠ some 0 ∧
    run 2000 (mkInit (128 :: List.replicate 255 0)) =
      StepResult.halted ⟨129 :: List.replicate 255 0, 0, 256, 0, 256, 0, none⟩ ∧
    (129 : Nat) ≠ 1 :=
  ⟨by decide, by decide, by decide, by decide⟩

/-- Claim C2 (amended): the single-instruction program `+` loads as byte
`128` in cell 0 (zero-padded to 256 bytes); run to completion the engine
halts with `ipl = 256`, `memory[0]` incremented by exactly 1 from its initial
packed value 128, and all other cells 0. -/
theorem c2_amended_single_increment :
    load [Instruction.Increment] = some (128 :: List.replicate 255 0) ∧
    run 2000 (mkInit (128 :: List.replicate 255 0)) =
      StepResult.halted ⟨(128 + 1) :: List.replicate 255 0, 0, 256, 0, 256, 0, none⟩ :=
  ⟨by decide, by decide⟩

/-- Unfold one step of `run`. -/
lemma run_succ (n : Nat) (s : State) :
    run (n + 1) s = match step s with
      | StepResult.next s' => run n s'
      | r => r := rfl

/-- If the engine is still running after `n + 1` steps it was still running
after `n`. -/
lemma run_next_pred (n : Nat) : ∀ s : State,
    (∃ s', run (n + 1) s = StepResult.next s') →
    ∃ s'', run n s = StepResult.next s'' := by
  induction n with
  | zero => exact fun s _ => ⟨s, rfl⟩
  | succ n ih =>
    intro s h
    obtain ⟨s', hs'⟩ := h
    cases hst : step s with
    | halted x =>
      simp only [run_succ, hst] at hs'
      exact StepResult.noConfusion hs'
    | panicked =>
      simp only [run_succ, hst] at hs'
      exact StepResult.noConfusion hs'
    | next s2 =>
      simp only [run_succ, hst] at hs' ⊢
      exact ih s2 ⟨s', hs'⟩

/-- If the engine is still running after `n` steps it was still running after
any `m ≤ n`. -/
lemma run_next_mono (m n : Nat) (s : State) (hmn : m ≤ n) :
    (∃ s', run n s = StepResult.next s') →
    ∃ s'', run m s = StepResult.next s'' := by
  induction hmn with
  | refl => exact fun h => h
  | step _ ih => exact fun h => ih (run_next_pred _ s h)

/-- Claim C9: on the all-zero (empty / all-`LoopOpen`) 256-byte image the
engine is still running after every `k ≤ 1024` steps and halts on step 1025,
i.e. it terminates after exactly `256 * 4 = 1024` fetch-execute cycles, `ipl`
having monotonically reached 256. -/
theorem c9_empty_program_halts_after_1024 :
    run 1025 (mkInit (List.replicate 256 0)) =
      StepResult.halted ⟨List.replicate 256 0, 0, 256, 0, 256, 0, none⟩ ∧
    (∀ k, k ≤ 1024 →
      ∃ s, run k (mkInit (List.replicate 256 0)) = StepResult.next s) := by
  constructor
  · decide
  · have h1024 : ∃ s, run 1024 (mkInit (List.replicate 256 0)) = StepResult.next s :=
      ⟨⟨List.replicate 256 0, 0, 256, 0, 256, 0, none⟩, by decide⟩
    intro k hk
    exact run_next_mono k 1024 _ hk h1024

theorem c9_witness :
    (7 : Nat) ≤ 1024 ∧
    ∃ s, run 7 (mkInit (List.replicate 256 0)) = StepResult.next s :=
  ⟨by decide, c9_empty_program_halts_after_1024.2 7 (by decide)⟩
